import Mathlib

/-!
Verification of the clause-level rule engine of the contract risk analyzer
(`app.py`).  Document and clause texts are modelled as `List Char`; Python's
`str.lower()` is `Char.toLower` mapped over the text, Python's substring test
`pat in s` is `hasSub`, and `re.split(r'\n\s*\n', text)` is `reSplit`.
-/

namespace ContractBot

/-- ASCII whitespace: the characters matched by the regex class `\s` and
stripped by `str.strip()` (space, tab, newline, carriage return, vertical
tab, form feed). -/
def isSpace (c : Char) : Bool :=
  c = ' ' || c = '\t' || c = '\n' || c = '\r' || c = '\x0b' || c = '\x0c'

/-- Python `str.lower()` (character-wise case folding). -/
def lower (l : List Char) : List Char := l.map Char.toLower

/-- Does `pat` occur at the head of `hay`? -/
def subAt : List Char → List Char → Bool
  | [], _ => true
  | _ :: _, [] => false
  | p :: ps, h :: hs => p == h && subAt ps hs

/-- Does `pat` occur anywhere in `hay`? -/
def subIn (pat : List Char) : List Char → Bool
  | [] => pat.isEmpty
  | h :: hs => subAt pat (h :: hs) || subIn pat hs

/-- Python's substring test `pat in hay`. -/
def hasSub (hay : List Char) (pat : String) : Bool := subIn pat.data hay

/-- After the leading `'\n'` of a candidate separator has been consumed, scan
the maximal whitespace run that follows; if it contains another newline,
return the text after the last newline of that run.  This is the remainder of
a greedy, backtracking match of the regex `\n\s*\n` whose first character has
already been consumed. -/
def sepRest : List Char → Option (List Char)
  | [] => none
  | c :: t =>
    if isSpace c then
      match sepRest t with
      | some r => some r
      | none => if c = '\n' then some t else none
    else none

/-- Scan of `re.split(r'\n\s*\n', text)`: the current fragment is accumulated
in `acc` (reversed); at each `'\n'` a separator match is attempted.  The fuel
argument bounds the recursion; fuel equal to the length of the remaining text
always suffices. -/
def reSplitAux : Nat → List Char → List Char → List (List Char)
  | _, acc, [] => [acc.reverse]
  | 0, acc, c :: t => [acc.reverse ++ c :: t]
  | fuel + 1, acc, c :: t =>
    if c = '\n' then
      match sepRest t with
      | some r => acc.reverse :: reSplitAux fuel [] r
      | none => reSplitAux fuel (c :: acc) t
    else reSplitAux fuel (c :: acc) t

/-- `re.split(r'\n\s*\n', text)`, with the current fragment `acc` already
read (reversed). -/
def reSplit (acc text : List Char) : List (List Char) :=
  reSplitAux text.length acc text

/-- Python `str.strip()`. -/
def pyStrip (l : List Char) : List Char :=
  ((l.dropWhile isSpace).reverse.dropWhile isSpace).reverse

/-- `split_clauses` from `app.py`:
`parts = re.split(r'\n\s*\n', text)`, then keep `p.strip()` for the parts
whose stripped length exceeds 40. -/
def split_clauses (text : List Char) : List (List Char) :=
  ((reSplit [] text).map pyStrip).filter fun p => 40 < p.length

/-- `classify_contract` from `app.py`. -/
def classify_contract (text : List Char) : String :=
  if hasSub (lower text) "employee" || hasSub (lower text) "salary" then
    "Employment Agreement"
  else if hasSub (lower text) "lease" || hasSub (lower text) "rent" then
    "Lease Agreement"
  else if hasSub (lower text) "vendor" || hasSub (lower text) "supply" then
    "Vendor Contract"
  else if hasSub (lower text) "partner" then
    "Partnership Agreement"
  else
    "Service Agreement"

/-- `classify_intent` from `app.py`. -/
def classify_intent (clause : List Char) : String :=
  if hasSub (lower clause) "shall not" || hasSub (lower clause) "must not" ||
      hasSub (lower clause) "prohibited" then
    "Prohibition"
  else if hasSub (lower clause) "shall" || hasSub (lower clause) "must" then
    "Obligation"
  else if hasSub (lower clause) "may" || hasSub (lower clause) "entitled to" then
    "Right"
  else
    "Neutral"

/-- The fixed vague-phrase list of `detect_ambiguity`. -/
def vague : List String :=
  ["reasonable", "as soon as possible", "etc", "as appropriate", "from time to time"]

/-- `detect_ambiguity` from `app.py`:
`[w for w in vague if w in clause.lower()]`. -/
def detect_ambiguity (clause : List Char) : List String :=
  vague.filter fun w => hasSub (lower clause) w

/-- The fixed 8-element risk taxonomy, in the order of `detect_risks`. -/
def taxonomy : List String :=
  ["Indemnity", "Penalty", "Unilateral Termination", "Arbitration/Jurisdiction",
   "Auto Renewal", "Non Compete", "IP Transfer", "Lock-in Period"]

/-- `detect_risks` from `app.py`: the sequence of conditional `risks.append`
calls, rendered as a concatenation of conditional singletons. -/
def detect_risks (clause : List Char) : List String :=
  (if hasSub (lower clause) "indemn" then ["Indemnity"] else []) ++
  (if hasSub (lower clause) "penalty" || hasSub (lower clause) "fine" then
    ["Penalty"] else []) ++
  (if hasSub (lower clause) "terminate at any time" ||
      hasSub (lower clause) "without cause" then
    ["Unilateral Termination"] else []) ++
  (if hasSub (lower clause) "arbitration" || hasSub (lower clause) "jurisdiction" then
    ["Arbitration/Jurisdiction"] else []) ++
  (if hasSub (lower clause) "automatically renew" then ["Auto Renewal"] else []) ++
  (if hasSub (lower clause) "non-compete" then ["Non Compete"] else []) ++
  (if hasSub (lower clause) "intellectual property" && hasSub (lower clause) "assign" then
    ["IP Transfer"] else []) ++
  (if hasSub (lower clause) "lock-in" || hasSub (lower clause) "cannot terminate before" then
    ["Lock-in Period"] else [])

/-- `risk_level` from `app.py`. -/
def risk_level (risks : List String) : String :=
  if risks.length = 0 then "Low"
  else if risks.length = 1 then "Medium"
  else "High"

/-- The document-level aggregation at the bottom of `app.py`:
`overall = "Low"`, overwritten with `"High"` when `high_count > 2`, else with
`"Medium"` when `high_count > 0`. -/
def overall_risk (high_count : Nat) : String :=
  if high_count > 2 then "High"
  else if high_count > 0 then "Medium"
  else "Low"

/-- The running `high_count` of the analysis loop: the number of clauses whose
risk level is `"High"`. -/
def high_count (levels : List String) : Nat :=
  levels.countP fun lv => lv == "High"

/-- The per-clause risk levels computed by the analysis loop, in clause order. -/
def clause_levels (text : List Char) : List String :=
  (split_clauses text).map fun c => risk_level (detect_risks c)

/-- The worked end-to-end input document. -/
def egText : List Char :=
  ("Employee shall not disclose confidential information.\n\nEmployee shall indemnify Employer for any penalty arising from breach. This clause also includes arbitration for disputes.").data

/-- First clause of the worked end-to-end input. -/
def egClause1 : List Char :=
  ("Employee shall not disclose confidential information.").data

/-- Second clause of the worked end-to-end input. -/
def egClause2 : List Char :=
  ("Employee shall indemnify Employer for any penalty arising from breach. This clause also includes arbitration for disputes.").data

/-- The first separator match of `re.split(r'\n\s*\n', ·)` in a text:
`some (p, r)` when the text consists of a match-free fragment `p`, then a
separator match, then the remainder `r`; `none` when no separator occurs. -/
def firstSep : List Char → Option (List Char × List Char)
  | [] => none
  | c :: t =>
    if c = '\n' then
      match sepRest t with
      | some r => some ([], r)
      | none => (firstSep t).map fun pr => (c :: pr.1, pr.2)
    else (firstSep t).map fun pr => (c :: pr.1, pr.2)

/-- Rejoin a clause list with blank-line separators. -/
def joinBlank : List (List Char) → List Char
  | [] => []
  | [c] => c
  | c :: c2 :: cs => c ++ '\n' :: '\n' :: joinBlank (c2 :: cs)

/-- Modelled from the spec (§4.1): a blank-line boundary is a maximal run of
whitespace containing at least one blank line, i.e. at least two line breaks.
`specFirst` returns the text before and after the first such boundary, or
`none` when there is none. -/
def specFirst : List Char → Option (List Char × List Char)
  | [] => none
  | c :: t =>
    if isSpace c then
      if 2 ≤ (c :: t.takeWhile isSpace).count '\n' then
        some ([], t.dropWhile isSpace)
      else
        (specFirst (t.dropWhile isSpace)).map
          fun pr => ((c :: t.takeWhile isSpace) ++ pr.1, pr.2)
    else
      (specFirst t).map fun pr => (c :: pr.1, pr.2)
termination_by l => l.length
decreasing_by
  · exact Nat.lt_succ_of_le ((List.dropWhile_sublist _).length_le)
  · exact Nat.lt_succ_of_le (Nat.le_refl _)

/-- Iterate `specFirst`; fuel equal to the text length always suffices. -/
def specSplitAux : Nat → List Char → List (List Char)
  | 0, l => [l]
  | fuel + 1, l =>
    match specFirst l with
    | none => [l]
    | some (p, r) => p :: specSplitAux fuel r

/-- Modelled from the spec (§4.1): split the document at blank-line
boundaries. -/
def specSplit (l : List Char) : List (List Char) := specSplitAux l.length l

/-- Modelled from the spec (§4.1): the clause segmenter — split at blank-line
boundaries, trim each fragment of leading/trailing whitespace, and drop
fragments whose trimmed length is at most 40 characters. -/
def splitClausesSpec (text : List Char) : List (List Char) :=
  ((specSplit text).map pyStrip).filter fun p => 40 < p.length

section Theorems

/-- A conditional singleton is a sublist of the singleton. -/
theorem ite_singleton_sublist {α : Type} (c : Prop) [Decidable c] (x : α) :
    (if c then [x] else []).Sublist [x] := by
  split
  · exact List.Sublist.refl _
  · exact List.nil_sublist _

/-- Membership in a conditional singleton. -/
theorem mem_ite_singleton {α : Type} {c : Prop} [Decidable c] {x y : α} :
    y ∈ (if c then [x] else []) ↔ c ∧ y = x := by
  split <;> simp_all

/-- C3: the clause risk level is `Low` exactly on the empty risk list, `Medium`
exactly on singletons, `High` exactly on lists with two or more elements, and
it depends only on the length of the list. -/
theorem risk_level_by_count (risks : List String) :
    (risk_level risks = "Low" ↔ risks = []) ∧
    (risk_level risks = "Medium" ↔ risks.length = 1) ∧
    (risk_level risks = "High" ↔ 2 ≤ risks.length) ∧
    (∀ other : List String, risks.length = other.length →
      risk_level risks = risk_level other) := by
  have hLM : ("Low" : String) ≠ "Medium" := by decide
  have hLH : ("Low" : String) ≠ "High" := by decide
  have hML : ("Medium" : String) ≠ "Low" := by decide
  have hMH : ("Medium" : String) ≠ "High" := by decide
  have hHL : ("High" : String) ≠ "Low" := by decide
  have hHM : ("High" : String) ≠ "Medium" := by decide
  refine ⟨?_, ?_, ?_, fun other h => by simp only [risk_level, h]⟩ <;>
    rcases risks with _ | ⟨a, _ | ⟨b, t⟩⟩ <;>
      simp [risk_level, hLM, hLH, hML, hMH, hHL, hHM]

/-- Witness for C3 at concrete inputs. -/
theorem risk_level_by_count_eg :
    risk_level ["Indemnity"] = risk_level ["Penalty"] :=
  (risk_level_by_count ["Indemnity"]).2.2.2 ["Penalty"] (by decide)

/-- C4: zero `High` clauses give overall `Low`, one or two give `Medium`, and
more than two give `High`. -/
theorem overall_risk_thresholds (levels : List String) :
    (high_count levels = 0 → overall_risk (high_count levels) = "Low") ∧
    ((high_count levels = 1 ∨ high_count levels = 2) →
      overall_risk (high_count levels) = "Medium") ∧
    (2 < high_count levels → overall_risk (high_count levels) = "High") := by
  refine ⟨fun h => ?_, fun h => ?_, fun h => ?_⟩
  · rw [h]; decide
  · rcases h with h | h <;> rw [h] <;> decide
  · unfold overall_risk
    rw [if_pos h]

/-- Witness for C4 at concrete inputs. -/
theorem overall_risk_thresholds_eg :
    overall_risk (high_count []) = "Low" ∧
    overall_risk (high_count ["High", "Low"]) = "Medium" ∧
    overall_risk (high_count ["High", "High", "High"]) = "High" :=
  ⟨(overall_risk_thresholds []).1 (by decide),
   (overall_risk_thresholds ["High", "Low"]).2.1 (Or.inl (by decide)),
   (overall_risk_thresholds ["High", "High", "High"]).2.2 (by decide)⟩

/-- C2: the intent classifier is the first-match-wins decision list of the
spec: any prohibition marker forces `Prohibition` (even when obligation or
right markers are also present); otherwise an obligation marker gives
`Obligation`; otherwise a right marker gives `Right`; otherwise `Neutral`.
Exactly one of the four labels is produced. -/
theorem intent_decision_list (c : List Char) :
    ((hasSub (lower c) "shall not" = true ∨ hasSub (lower c) "must not" = true ∨
        hasSub (lower c) "prohibited" = true) →
      classify_intent c = "Prohibition") ∧
    (hasSub (lower c) "shall not" = false → hasSub (lower c) "must not" = false →
      hasSub (lower c) "prohibited" = false →
      (hasSub (lower c) "shall" = true ∨ hasSub (lower c) "must" = true) →
      classify_intent c = "Obligation") ∧
    (hasSub (lower c) "shall not" = false → hasSub (lower c) "must not" = false →
      hasSub (lower c) "prohibited" = false →
      hasSub (lower c) "shall" = false → hasSub (lower c) "must" = false →
      (hasSub (lower c) "may" = true ∨ hasSub (lower c) "entitled to" = true) →
      classify_intent c = "Right") ∧
    (hasSub (lower c) "shall not" = false → hasSub (lower c) "must not" = false →
      hasSub (lower c) "prohibited" = false →
      hasSub (lower c) "shall" = false → hasSub (lower c) "must" = false →
      hasSub (lower c) "may" = false → hasSub (lower c) "entitled to" = false →
      classify_intent c = "Neutral") ∧
    (classify_intent c = "Prohibition" ∨ classify_intent c = "Obligation" ∨
      classify_intent c = "Right" ∨ classify_intent c = "Neutral") := by
  refine ⟨fun h => ?_, fun h1 h2 h3 h => ?_, fun h1 h2 h3 h4 h5 h => ?_,
    fun h1 h2 h3 h4 h5 h6 h7 => ?_, ?_⟩
  · rcases h with h | h | h <;> simp [classify_intent, h]
  · rcases h with h | h <;> simp [classify_intent, h1, h2, h3, h]
  · rcases h with h | h <;> simp [classify_intent, h1, h2, h3, h4, h5, h]
  · simp [classify_intent, h1, h2, h3, h4, h5, h6, h7]
  · unfold classify_intent
    split
    · exact Or.inl rfl
    · split
      · exact Or.inr (Or.inl rfl)
      · split
        · exact Or.inr (Or.inr (Or.inl rfl))
        · exact Or.inr (Or.inr (Or.inr rfl))

/-- Witness for C2 at concrete inputs, one per branch of the decision list. -/
theorem intent_decision_list_eg :
    classify_intent ("The employee shall not compete and may relocate.").data = "Prohibition" ∧
    classify_intent ("The employee shall report weekly.").data = "Obligation" ∧
    classify_intent ("The employee may resign.").data = "Right" ∧
    classify_intent ("This agreement is dated today.").data = "Neutral" :=
  ⟨(intent_decision_list _).1 (Or.inl (by decide)),
   (intent_decision_list _).2.1 (by decide) (by decide) (by decide) (Or.inl (by decide)),
   (intent_decision_list _).2.2.1 (by decide) (by decide) (by decide) (by decide)
     (by decide) (Or.inl (by decide)),
   (intent_decision_list _).2.2.2.1 (by decide) (by decide) (by decide) (by decide)
     (by decide) (by decide) (by decide)⟩

/-- C9: the contract type classifier is the first-match-wins decision list of
the spec, and the empty document is classified `Service Agreement`. -/
theorem contract_decision_list (t : List Char) :
    ((hasSub (lower t) "employee" = true ∨ hasSub (lower t) "salary" = true) →
      classify_contract t = "Employment Agreement") ∧
    (hasSub (lower t) "employee" = false → hasSub (lower t) "salary" = false →
      (hasSub (lower t) "lease" = true ∨ hasSub (lower t) "rent" = true) →
      classify_contract t = "Lease Agreement") ∧
    (hasSub (lower t) "employee" = false → hasSub (lower t) "salary" = false →
      hasSub (lower t) "lease" = false → hasSub (lower t) "rent" = false →
      (hasSub (lower t) "vendor" = true ∨ hasSub (lower t) "supply" = true) →
      classify_contract t = "Vendor Contract") ∧
    (hasSub (lower t) "employee" = false → hasSub (lower t) "salary" = false →
      hasSub (lower t) "lease" = false → hasSub (lower t) "rent" = false →
      hasSub (lower t) "vendor" = false → hasSub (lower t) "supply" = false →
      hasSub (lower t) "partner" = true →
      classify_contract t = "Partnership Agreement") ∧
    (hasSub (lower t) "employee" = false → hasSub (lower t) "salary" = false →
      hasSub (lower t) "lease" = false → hasSub (lower t) "rent" = false →
      hasSub (lower t) "vendor" = false → hasSub (lower t) "supply" = false →
      hasSub (lower t) "partner" = false →
      classify_contract t = "Service Agreement") ∧
    classify_contract [] = "Service Agreement" := by
  refine ⟨fun h => ?_, fun h1 h2 h => ?_, fun h1 h2 h3 h4 h => ?_,
    fun h1 h2 h3 h4 h5 h6 h7 => ?_, fun h1 h2 h3 h4 h5 h6 h7 => ?_, by decide⟩
  · rcases h with h | h <;> simp [classify_contract, h]
  · rcases h with h | h <;> simp [classify_contract, h1, h2, h]
  · rcases h with h | h <;> simp [classify_contract, h1, h2, h3, h4, h]
  · simp [classify_contract, h1, h2, h3, h4, h5, h6, h7]
  · simp [classify_contract, h1, h2, h3, h4, h5, h6, h7]

/-- Witness for C9: a text containing `vendor` and `supply` but no earlier
keyword is a `Vendor Contract`. -/
theorem contract_decision_list_eg :
    classify_contract ("The vendor will supply goods monthly.").data = "Vendor Contract" :=
  (contract_decision_list _).2.2.1 (by decide) (by decide) (by decide) (by decide)
    (Or.inl (by decide))

/-- C10: vague-phrase matching is raw substring containment: whenever the
case-folded clause contains the letters `etc` anywhere — in particular inside
a longer word — the ambiguity detector reports `"etc"`. -/
theorem ambiguity_raw_substring (clause : List Char)
    (h : hasSub (lower clause) "etc" = true) :
    "etc" ∈ detect_ambiguity clause := by
  unfold detect_ambiguity
  exact List.mem_filter.mpr ⟨by simp [vague], h⟩

/-- Witness for C10: a clause whose only occurrence of `etc` is inside the
word `stretch` still gets the `"etc"` ambiguity flag. -/
theorem ambiguity_raw_substring_eg :
    "etc" ∈ detect_ambiguity ("The parties will stretch the delivery window.").data :=
  ambiguity_raw_substring _ (by decide)

/-- C5: the risk detector returns a duplicate-free list that is a sublist of
the fixed 8-element taxonomy (hence drawn from it, in table order, regardless
of where patterns occur in the clause); equal inputs give equal outputs; and
`IP Transfer` is reported exactly when both `intellectual property` and
`assign` occur. -/
theorem detect_risks_taxonomy (clause : List Char) :
    (detect_risks clause).Sublist taxonomy ∧
    (detect_risks clause).Nodup ∧
    (∀ r ∈ detect_risks clause, r ∈ taxonomy) ∧
    ("IP Transfer" ∈ detect_risks clause ↔
      hasSub (lower clause) "intellectual property" = true ∧
      hasSub (lower clause) "assign" = true) ∧
    (∀ clause2, clause = clause2 → detect_risks clause = detect_risks clause2) := by
  have hsub : (detect_risks clause).Sublist taxonomy := by
    unfold detect_risks taxonomy
    have s1 := ite_singleton_sublist (hasSub (lower clause) "indemn" = true)
      ("Indemnity" : String)
    have s2 := ite_singleton_sublist
      ((hasSub (lower clause) "penalty" || hasSub (lower clause) "fine") = true)
      ("Penalty" : String)
    have s3 := ite_singleton_sublist
      ((hasSub (lower clause) "terminate at any time" ||
        hasSub (lower clause) "without cause") = true)
      ("Unilateral Termination" : String)
    have s4 := ite_singleton_sublist
      ((hasSub (lower clause) "arbitration" ||
        hasSub (lower clause) "jurisdiction") = true)
      ("Arbitration/Jurisdiction" : String)
    have s5 := ite_singleton_sublist
      (hasSub (lower clause) "automatically renew" = true) ("Auto Renewal" : String)
    have s6 := ite_singleton_sublist
      (hasSub (lower clause) "non-compete" = true) ("Non Compete" : String)
    have s7 := ite_singleton_sublist
      ((hasSub (lower clause) "intellectual property" &&
        hasSub (lower clause) "assign") = true)
      ("IP Transfer" : String)
    have s8 := ite_singleton_sublist
      ((hasSub (lower clause) "lock-in" ||
        hasSub (lower clause) "cannot terminate before") = true)
      ("Lock-in Period" : String)
    exact ((((((s1.append s2).append s3).append s4).append s5).append s6).append
      s7).append s8
  have htax : taxonomy.Nodup := by decide
  refine ⟨hsub, hsub.nodup htax, fun r hr => hsub.subset hr, ?_,
    fun clause2 h => by rw [h]⟩
  have n1 : ("IP Transfer" : String) ≠ "Indemnity" := by decide
  have n2 : ("IP Transfer" : String) ≠ "Penalty" := by decide
  have n3 : ("IP Transfer" : String) ≠ "Unilateral Termination" := by decide
  have n4 : ("IP Transfer" : String) ≠ "Arbitration/Jurisdiction" := by decide
  have n5 : ("IP Transfer" : String) ≠ "Auto Renewal" := by decide
  have n6 : ("IP Transfer" : String) ≠ "Non Compete" := by decide
  have n8 : ("IP Transfer" : String) ≠ "Lock-in Period" := by decide
  simp [detect_risks, mem_ite_singleton, n1, n2, n3, n4, n5, n6, n8]

/-- Witness for C5 at a concrete input, discharging the hypotheses of the
membership and determinism conjuncts. -/
theorem detect_risks_taxonomy_eg :
    "Indemnity" ∈ taxonomy ∧ detect_risks egClause2 = detect_risks egClause2 :=
  ⟨(detect_risks_taxonomy egClause2).2.2.1 "Indemnity" (by decide),
   (detect_risks_taxonomy egClause2).2.2.2.2 egClause2 rfl⟩

set_option maxRecDepth 8000 in
/-- C1: the worked end-to-end example.  The example document splits into its
two paragraphs; the first is a `Prohibition` with no risks and level `Low`;
the second is an `Obligation` with risks `[Indemnity, Penalty,
Arbitration/Jurisdiction]` and level `High`; one clause is `High`, so the
overall document risk is `Medium`. -/
theorem end_to_end_example :
    split_clauses egText = [egClause1, egClause2] ∧
    classify_intent egClause1 = "Prohibition" ∧
    detect_risks egClause1 = [] ∧
    risk_level (detect_risks egClause1) = "Low" ∧
    classify_intent egClause2 = "Obligation" ∧
    detect_risks egClause2 = ["Indemnity", "Penalty", "Arbitration/Jurisdiction"] ∧
    risk_level (detect_risks egClause2) = "High" ∧
    high_count (clause_levels egText) = 1 ∧
    overall_risk (high_count (clause_levels egText)) = "Medium" := by decide

/-- The remainder of a separator match is strictly shorter than the scanned
text. -/
theorem sepRest_length : ∀ {t r : List Char}, sepRest t = some r → r.length < t.length := by
  intro t
  induction t with
  | nil => intro r h; simp [sepRest] at h
  | cons c t ih =>
    intro r h
    by_cases hc : isSpace c
    · rcases hs : sepRest t with _ | r'
      · by_cases hn : c = '\n'
        · simp [sepRest, hc, hs, hn, show isSpace '\n' = true by decide] at h
          subst h
          exact Nat.lt_succ_of_le (Nat.le_refl _)
        · simp [sepRest, hc, hs, hn] at h
      · simp [sepRest, hc, hs] at h
        subst h
        exact Nat.lt_succ_of_lt (ih hs)
    · simp [sepRest, hc] at h

/-- `sepRest` fails exactly when the leading whitespace run contains no
newline. -/
theorem sepRest_eq_none_iff {t : List Char} :
    sepRest t = none ↔ '\n' ∉ t.takeWhile isSpace := by
  induction t with
  | nil => simp [sepRest]
  | cons c t ih =>
    by_cases hc : isSpace c
    · rcases hs : sepRest t with _ | r'
      · have ht : '\n' ∉ t.takeWhile isSpace := ih.mp hs
        by_cases hn : c = '\n'
        · simp [sepRest, hc, hs, hn, show isSpace '\n' = true by decide]
        · have hn' : '\n' ≠ c := fun h => hn h.symm
          simp [sepRest, hc, hs, hn, hn', ht]
      · have ht : '\n' ∈ t.takeWhile isSpace := by
          by_contra hmem
          rw [← ih] at hmem
          rw [hmem] at hs
          cases hs
        simp [sepRest, hc, hs, ht]
    · simp [sepRest, hc]

/-- Fuel irrelevance: any sufficient fuel computes `reSplit`. -/
theorem reSplitAux_eq : ∀ fuel acc (l : List Char), l.length ≤ fuel →
    reSplitAux fuel acc l = reSplit acc l := by
  intro fuel
  induction fuel using Nat.strong_induction_on with
  | _ fuel ih =>
    intro acc l hl
    match fuel, l with
    | fuel, [] => cases fuel <;> rfl
    | 0, c :: t => simp at hl
    | fuel + 1, c :: t =>
      have ht : t.length ≤ fuel := Nat.le_of_succ_le_succ hl
      show reSplitAux (fuel + 1) acc (c :: t) = reSplitAux (t.length + 1) acc (c :: t)
      by_cases hc : c = '\n'
      · rcases hs : sepRest t with _ | r
        · simp only [reSplitAux, if_pos hc, hs]
          rw [ih fuel (Nat.lt_succ_self _) (c :: acc) t ht,
            ih t.length (Nat.lt_succ_of_le ht) (c :: acc) t (Nat.le_refl _)]
        · have hr : r.length < t.length := sepRest_length hs
          simp only [reSplitAux, if_pos hc, hs]
          rw [ih fuel (Nat.lt_succ_self _) [] r (Nat.le_of_lt (Nat.lt_of_lt_of_le hr ht)),
            ih t.length (Nat.lt_succ_of_le ht) [] r (Nat.le_of_lt hr)]
      · simp only [reSplitAux, if_neg hc]
        rw [ih fuel (Nat.lt_succ_self _) (c :: acc) t ht,
          ih t.length (Nat.lt_succ_of_le ht) (c :: acc) t (Nat.le_refl _)]

/-- `reSplit` on the empty text. -/
theorem reSplit_nil (acc : List Char) : reSplit acc [] = [acc.reverse] := rfl

/-- One scanning step of `reSplit`. -/
theorem reSplit_cons (acc : List Char) (c : Char) (t : List Char) :
    reSplit acc (c :: t) =
      if c = '\n' then
        match sepRest t with
        | some r => acc.reverse :: reSplit [] r
        | none => reSplit (c :: acc) t
      else reSplit (c :: acc) t := by
  show reSplitAux (t.length + 1) acc (c :: t) = _
  by_cases hc : c = '\n'
  · rcases hs : sepRest t with _ | r
    · simp only [reSplitAux, if_pos hc, hs]
      exact reSplitAux_eq t.length (c :: acc) t (Nat.le_refl _)
    · simp only [reSplitAux, if_pos hc, hs]
      rw [reSplitAux_eq t.length [] r (Nat.le_of_lt (sepRest_length hs))]
  · simp only [reSplitAux, if_neg hc]
    exact reSplitAux_eq t.length (c :: acc) t (Nat.le_refl _)

/-- Membership in a `takeWhile` prefix is preserved by appending. -/
theorem mem_takeWhile_append {α : Type} {a : α} {p : α → Bool} {l₁ l₂ : List α}
    (h : a ∈ l₁.takeWhile p) : a ∈ (l₁ ++ l₂).takeWhile p := by
  rw [List.takeWhile_append]
  split
  · exact List.mem_append_left _ (List.takeWhile_subset p h)
  · exact h

/-- The scanning structure of `reSplit`: the text up to the first separator
match becomes a fragment, and scanning restarts after the match. -/
theorem reSplit_eq_firstSep : ∀ (l acc : List Char), reSplit acc l =
    match firstSep l with
    | none => [acc.reverse ++ l]
    | some pr => (acc.reverse ++ pr.1) :: reSplit [] pr.2 := by
  intro l
  induction l with
  | nil => intro acc; simp [reSplit_nil, firstSep]
  | cons c t ih =>
    intro acc
    rw [reSplit_cons]
    by_cases hc : c = '\n'
    · rcases hs : sepRest t with _ | r
      · rw [if_pos hc]
        simp only [hs]
        rw [ih (c :: acc)]
        simp only [firstSep, if_pos hc, hs]
        rcases hf : firstSep t with _ | pr
        · simp [List.reverse_cons, List.append_assoc]
        · simp [List.reverse_cons, List.append_assoc]
      · rw [if_pos hc]
        simp only [hs]
        simp [firstSep, if_pos hc, hs]
    · rw [if_neg hc]
      rw [ih (c :: acc)]
      simp only [firstSep, if_neg hc]
      rcases hf : firstSep t with _ | pr
      · simp [List.reverse_cons, List.append_assoc]
      · simp [List.reverse_cons, List.append_assoc]

/-- The remainder after the first separator match is strictly shorter. -/
theorem firstSep_length : ∀ {l p r : List Char}, firstSep l = some (p, r) →
    r.length < l.length := by
  intro l
  induction l with
  | nil => intro p r h; simp [firstSep] at h
  | cons c t ih =>
    intro p r h
    by_cases hc : c = '\n'
    · rcases hs : sepRest t with _ | r0
      · simp only [firstSep, if_pos hc, hs] at h
        rcases hf : firstSep t with _ | ⟨p', r'⟩
        · rw [hf] at h; simp at h
        · rw [hf] at h
          simp at h
          obtain ⟨hp, hr⟩ := h
          subst hr
          exact Nat.lt_succ_of_lt (ih hf)
      · simp only [firstSep, if_pos hc, hs] at h
        simp at h
        obtain ⟨hp, hr⟩ := h
        subst hr
        exact Nat.lt_succ_of_lt (sepRest_length hs)
    · simp only [firstSep, if_neg hc] at h
      rcases hf : firstSep t with _ | ⟨p', r'⟩
      · rw [hf] at h; simp at h
      · rw [hf] at h
        simp at h
        obtain ⟨hp, hr⟩ := h
        subst hr
        exact Nat.lt_succ_of_lt (ih hf)

/-- A fragment returned by `firstSep` is a prefix of the text. -/
theorem firstSep_prefix : ∀ {l p r : List Char}, firstSep l = some (p, r) →
    ∃ m, l = p ++ m := by
  intro l
  induction l with
  | nil => intro p r h; simp [firstSep] at h
  | cons c t ih =>
    intro p r h
    by_cases hc : c = '\n'
    · rcases hs : sepRest t with _ | r0
      · simp only [firstSep, if_pos hc, hs] at h
        rcases hf : firstSep t with _ | ⟨p', r'⟩
        · rw [hf] at h; simp at h
        · rw [hf] at h
          simp at h
          obtain ⟨hp, hr⟩ := h
          obtain ⟨m, hm⟩ := ih hf
          subst hp
          exact ⟨m, by simp [hm]⟩
      · simp only [firstSep, if_pos hc, hs] at h
        simp at h
        obtain ⟨hp, hr⟩ := h
        subst hp
        exact ⟨c :: t, rfl⟩
    · simp only [firstSep, if_neg hc] at h
      rcases hf : firstSep t with _ | ⟨p', r'⟩
      · rw [hf] at h; simp at h
      · rw [hf] at h
        simp at h
        obtain ⟨hp, hr⟩ := h
        obtain ⟨m, hm⟩ := ih hf
        subst hp
        exact ⟨m, by simp [hm]⟩

/-- The fragment before the first separator match contains no separator
match itself. -/
theorem firstSep_fst_none : ∀ {l p r : List Char}, firstSep l = some (p, r) →
    firstSep p = none := by
  intro l
  induction l with
  | nil => intro p r h; simp [firstSep] at h
  | cons c t ih =>
    intro p r h
    by_cases hc : c = '\n'
    · rcases hs : sepRest t with _ | r0
      · simp only [firstSep, if_pos hc, hs] at h
        rcases hf : firstSep t with _ | ⟨p', r'⟩
        · rw [hf] at h; simp at h
        · rw [hf] at h
          simp at h
          obtain ⟨hp, hr⟩ := h
          have hsp' : sepRest p' = none := by
            rw [sepRest_eq_none_iff]
            intro hmem
            obtain ⟨m, hm⟩ := firstSep_prefix hf
            have hmem2 : '\n' ∈ t.takeWhile isSpace := by
              rw [hm]; exact mem_takeWhile_append hmem
            exact (sepRest_eq_none_iff.mp hs) hmem2
          subst hp
          simp [firstSep, if_pos hc, hsp', ih hf]
      · simp only [firstSep, if_pos hc, hs] at h
        simp at h
        obtain ⟨hp, hr⟩ := h
        subst hp
        rfl
    · simp only [firstSep, if_neg hc] at h
      rcases hf : firstSep t with _ | ⟨p', r'⟩
      · rw [hf] at h; simp at h
      · rw [hf] at h
        simp at h
        obtain ⟨hp, hr⟩ := h
        subst hp
        simp [firstSep, if_neg hc, ih hf]

/-- A successful separator scan stays successful when text is appended. -/
theorem sepRest_append_ne_none {t v : List Char} (h : sepRest t ≠ none) :
    sepRest (t ++ v) ≠ none := by
  intro hcon
  rw [sepRest_eq_none_iff] at hcon
  apply hcon
  apply mem_takeWhile_append
  by_contra h2
  exact h (sepRest_eq_none_iff.mpr h2)

/-- A text containing a separator match still contains one when text is
appended on the right. -/
theorem firstSep_append_ne_none_right : ∀ {s : List Char} (v : List Char),
    firstSep s ≠ none → firstSep (s ++ v) ≠ none := by
  intro s
  induction s with
  | nil => intro v h; exact absurd rfl h
  | cons c t ih =>
    intro v h
    rw [List.cons_append]
    by_cases hc : c = '\n'
    · rcases hs2 : sepRest (t ++ v) with _ | r
      · have hst : sepRest t = none := by
          by_contra hn
          exact (sepRest_append_ne_none hn) hs2
        have hft : firstSep t ≠ none := by
          intro hf0
          apply h
          simp [firstSep, if_pos hc, hst, hf0]
        simp only [firstSep, if_pos hc, hs2, ne_eq, Option.map_eq_none']
        exact ih v hft
      · simp [firstSep, if_pos hc, hs2]
    · have hft : firstSep t ≠ none := by
        intro hf0
        apply h
        simp [firstSep, if_neg hc, hf0]
      simp only [firstSep, if_neg hc, ne_eq, Option.map_eq_none']
      exact ih v hft

/-- A text containing a separator match still contains one when text is
prepended on the left. -/
theorem firstSep_append_ne_none_left : ∀ (u : List Char) {s : List Char},
    firstSep s ≠ none → firstSep (u ++ s) ≠ none := by
  intro u
  induction u with
  | nil => intro s h; exact h
  | cons a u ih =>
    intro s h
    rw [List.cons_append]
    by_cases ha : a = '\n'
    · rcases hs2 : sepRest (u ++ s) with _ | r
      · simp only [firstSep, if_pos ha, hs2, ne_eq, Option.map_eq_none']
        exact ih h
      · simp [firstSep, if_pos ha, hs2]
    · simp only [firstSep, if_neg ha, ne_eq, Option.map_eq_none']
      exact ih h

/-- The head of a `dropWhile` result fails the predicate. -/
theorem dropWhile_head_false {α : Type} {p : α → Bool} {l : List α} {x : α}
    (h : (l.dropWhile p).head? = some x) : p x = false := by
  induction l with
  | nil => simp at h
  | cons a t ih =>
    by_cases hp : p a
    · rw [List.dropWhile_cons_of_pos hp] at h
      exact ih h
    · rw [List.dropWhile_cons_of_neg hp] at h
      simp at h
      subst h
      simpa using hp

/-- `dropWhile` is the identity when the head already fails the predicate. -/
theorem dropWhile_eq_self_of_head {α : Type} {p : α → Bool} {l : List α}
    (h : ∀ x, l.head? = some x → p x = false) : l.dropWhile p = l := by
  cases l with
  | nil => rfl
  | cons a t =>
    have ha := h a rfl
    rw [List.dropWhile_cons_of_neg (by simp [ha])]

/-- Stripping ignores an all-whitespace prefix. -/
theorem pyStrip_ws_append {u l : List Char} (hu : ∀ c ∈ u, isSpace c = true) :
    pyStrip (u ++ l) = pyStrip l := by
  unfold pyStrip
  rw [List.dropWhile_append_of_pos hu]

/-- Stripping ignores an all-whitespace suffix. -/
theorem pyStrip_append_ws {l v : List Char} (hv : ∀ c ∈ v, isSpace c = true) :
    pyStrip (l ++ v) = pyStrip l := by
  unfold pyStrip
  rw [List.dropWhile_append]
  split
  · rename_i hemp
    have hl : l.dropWhile isSpace = [] := List.isEmpty_iff.mp hemp
    rw [List.dropWhile_eq_nil_iff.mpr hv, hl]
  · rw [List.reverse_append,
      List.dropWhile_append_of_pos (fun a ha => hv a (List.mem_reverse.mp ha))]

/-- The stripped text is an infix of the original text. -/
theorem pyStrip_infix (l : List Char) : ∃ u v, l = u ++ (pyStrip l ++ v) := by
  refine ⟨l.takeWhile isSpace,
    ((l.dropWhile isSpace).reverse.takeWhile isSpace).reverse, ?_⟩
  conv_lhs => rw [← List.takeWhile_append_dropWhile (p := isSpace) (l := l)]
  congr 1
  unfold pyStrip
  rw [← List.reverse_append, List.takeWhile_append_dropWhile, List.reverse_reverse]

/-- Stripping is idempotent. -/
theorem pyStrip_idem (l : List Char) : pyStrip (pyStrip l) = pyStrip l := by
  have hB : ((l.dropWhile isSpace).reverse.dropWhile isSpace).dropWhile isSpace =
      (l.dropWhile isSpace).reverse.dropWhile isSpace :=
    dropWhile_eq_self_of_head (fun x hx => dropWhile_head_false hx)
  have hpre : l.dropWhile isSpace =
      pyStrip l ++ ((l.dropWhile isSpace).reverse.takeWhile isSpace).reverse := by
    unfold pyStrip
    rw [← List.reverse_append, List.takeWhile_append_dropWhile, List.reverse_reverse]
  have hA : (pyStrip l).dropWhile isSpace = pyStrip l := by
    apply dropWhile_eq_self_of_head
    intro x hx
    rcases hps : pyStrip l with _ | ⟨y, ys⟩
    · rw [hps] at hx; simp at hx
    · rw [hps] at hx
      simp at hx
      subst hx
      have hhead : (l.dropWhile isSpace).head? = some y := by
        rw [hpre, hps]
        simp
      exact dropWhile_head_false hhead
  calc pyStrip (pyStrip l)
      = (((pyStrip l).dropWhile isSpace).reverse.dropWhile isSpace).reverse := rfl
    _ = ((pyStrip l).reverse.dropWhile isSpace).reverse := by rw [hA]
    _ = ((((l.dropWhile isSpace).reverse.dropWhile isSpace).reverse.reverse).dropWhile
          isSpace).reverse := rfl
    _ = pyStrip l := by
        rw [List.reverse_reverse, hB]
        rfl

/-- A nonempty clause fixed by stripping starts with a non-whitespace
character. -/
theorem pyStrip_fixed_head {c : List Char} (hfix : pyStrip c = c) :
    ∀ x, c.head? = some x → isSpace x = false := by
  intro x hx
  by_contra hws
  have hws' : isSpace x = true := by simpa using hws
  cases c with
  | nil => simp at hx
  | cons a t =>
    have hax : a = x := by simpa using hx
    subst hax
    have hlen : (pyStrip (a :: t)).length ≤ ((a :: t).dropWhile isSpace).length := by
      unfold pyStrip
      rw [List.length_reverse]
      calc (((a :: t).dropWhile isSpace).reverse.dropWhile isSpace).length
          ≤ ((a :: t).dropWhile isSpace).reverse.length :=
            (List.dropWhile_sublist _).length_le
        _ = ((a :: t).dropWhile isSpace).length := List.length_reverse _
    rw [List.dropWhile_cons_of_pos hws', hfix] at hlen
    have hlen2 : (t.dropWhile isSpace).length ≤ t.length :=
      (List.dropWhile_sublist _).length_le
    simp at hlen
    omega

/-- A nonempty clause fixed by stripping ends with a non-whitespace
character. -/
theorem pyStrip_fixed_last {c : List Char} (hfix : pyStrip c = c) :
    ∀ x, c.getLast? = some x → isSpace x = false := by
  have hrev : c.reverse = (c.dropWhile isSpace).reverse.dropWhile isSpace := by
    conv_lhs => rw [← hfix]
    unfold pyStrip
    rw [List.reverse_reverse]
  intro x hx
  rw [List.getLast?_eq_head?_reverse, hrev] at hx
  exact dropWhile_head_false hx

/-- The head of an append with a nonempty left part. -/
theorem head?_append_left {α : Type} {l m : List α} (h : l ≠ []) :
    (l ++ m).head? = l.head? := by
  cases l with
  | nil => exact absurd rfl h
  | cons a t => rfl

/-- `getLast?` skips a cons onto a nonempty list. -/
theorem getLast?_cons_of_ne_nil {α : Type} {a : α} {l : List α} (h : l ≠ []) :
    (a :: l).getLast? = l.getLast? := by
  cases l with
  | nil => exact absurd rfl h
  | cons b t => exact List.getLast?_cons_cons

/-- Scanning characters that are not newlines just accumulates them. -/
theorem reSplit_push : ∀ (u acc l : List Char), '\n' ∉ u →
    reSplit acc (u ++ l) = reSplit (u.reverse ++ acc) l := by
  intro u
  induction u with
  | nil => intro acc l _; simp
  | cons a u ih =>
    intro acc l h
    have ha : ¬(a = '\n') := fun hh => h (by rw [hh]; exact List.mem_cons_self _ _)
    rw [List.cons_append, reSplit_cons, if_neg ha,
      ih (a :: acc) l (fun hm => h (List.mem_cons_of_mem _ hm))]
    simp [List.append_assoc]

/-- When the text has no separator, the scan returns a single fragment. -/
theorem reSplit_of_none {l : List Char} (h : firstSep l = none) (acc : List Char) :
    reSplit acc l = [acc.reverse ++ l] := by
  rw [reSplit_eq_firstSep, h]

/-- When the text has a separator, the scan emits the first fragment and
restarts after the match. -/
theorem reSplit_of_some {l p r : List Char} (h : firstSep l = some (p, r))
    (acc : List Char) :
    reSplit acc l = (acc.reverse ++ p) :: reSplit [] r := by
  rw [reSplit_eq_firstSep, h]

/-- Appending text after a separator-free text that does not end in
whitespace shifts the first separator match. -/
theorem firstSep_append_of_none : ∀ {c : List Char}, firstSep c = none →
    (∀ x, c.getLast? = some x → isSpace x = false) →
    ∀ X, firstSep (c ++ X) = (firstSep X).map fun pr => (c ++ pr.1, pr.2) := by
  intro c
  induction c with
  | nil =>
    intro _ _ X
    rcases hf : firstSep X with _ | pr <;> simp [hf]
  | cons a c' ih =>
    intro h hlast X
    rw [List.cons_append]
    by_cases ha : a = '\n'
    · have hsc' : sepRest c' = none := by
        rcases ho : sepRest c' with _ | r0
        · rfl
        · simp [firstSep, if_pos ha, ho] at h
      have hnotall : ¬ ∀ x ∈ c', isSpace x = true := by
        intro hall
        cases hc : c' with
        | nil =>
          have hl := hlast a (by rw [hc]; rfl)
          rw [ha] at hl
          simp [isSpace] at hl
        | cons b bs =>
          rcases hrev : c'.reverse with _ | ⟨y, ys⟩
          · rw [List.reverse_eq_nil_iff] at hrev
            rw [hrev] at hc
            cases hc
          · have hy : c'.getLast? = some y := by
              rw [List.getLast?_eq_head?_reverse, hrev]
              rfl
            have hymem : y ∈ c' := by
              rw [← List.mem_reverse, hrev]
              exact List.mem_cons_self _ _
            have hws := hall y hymem
            have hlast' := hlast y (by
              rw [getLast?_cons_of_ne_nil (by rw [hc]; simp)]
              exact hy)
            rw [hlast'] at hws
            cases hws
      have htw : (c' ++ X).takeWhile isSpace = c'.takeWhile isSpace := by
        rw [List.takeWhile_append]
        split
        · rename_i hlen
          exfalso
          apply hnotall
          have heq : c'.takeWhile isSpace = c' :=
            (List.takeWhile_sublist _).eq_of_length hlen
          exact List.takeWhile_eq_self_iff.mp heq
        · rfl
      have hsrX : sepRest (c' ++ X) = none := by
        rw [sepRest_eq_none_iff, htw]
        exact sepRest_eq_none_iff.mp hsc'
      have hfc' : firstSep c' = none := by
        rcases hf0 : firstSep c' with _ | pr
        · rfl
        · simp [firstSep, if_pos ha, hsc', hf0] at h
      have hlast' : ∀ x, c'.getLast? = some x → isSpace x = false := by
        intro x hx
        apply hlast
        cases hcc : c' with
        | nil => rw [hcc] at hx; simp at hx
        | cons b bs =>
          rw [getLast?_cons_of_ne_nil (by simp)]
          rw [hcc] at hx
          exact hx
      simp only [firstSep, if_pos ha, hsrX]
      rw [ih hfc' hlast' X]
      rcases hf : firstSep X with _ | pr <;> simp [hf]
    · have hfc' : firstSep c' = none := by
        rcases hf0 : firstSep c' with _ | pr
        · rfl
        · simp [firstSep, if_neg ha, hf0] at h
      have hlast' : ∀ x, c'.getLast? = some x → isSpace x = false := by
        intro x hx
        apply hlast
        cases hcc : c' with
        | nil => rw [hcc] at hx; simp at hx
        | cons b bs =>
          rw [getLast?_cons_of_ne_nil (by simp)]
          rw [hcc] at hx
          exact hx
      simp only [firstSep, if_neg ha]
      rw [ih hfc' hlast' X]
      rcases hf : firstSep X with _ | pr <;> simp [hf]

/-- The first separator match right at a blank-line junction, when the text
after the junction does not start with whitespace. -/
theorem firstSep_blank_junction {m : List Char}
    (hm : ∀ x, m.head? = some x → isSpace x = false) :
    firstSep ('\n' :: '\n' :: m) = some ([], m) := by
  have hsr : sepRest m = none := by
    rw [sepRest_eq_none_iff]
    cases m with
    | nil => simp
    | cons b bs =>
      have hb := hm b rfl
      rw [List.takeWhile_cons_of_neg (by simp [hb])]
      simp
  have hsr2 : sepRest ('\n' :: m) = some m := by
    simp [sepRest, hsr, show isSpace '\n' = true by decide]
  simp [firstSep, hsr2]

/-- Every fragment of the scan is separator-free. -/
theorem reSplit_frags_none : ∀ (n : Nat) (l : List Char), l.length ≤ n →
    ∀ p ∈ reSplit [] l, firstSep p = none := by
  intro n
  induction n with
  | zero =>
    intro l hl p hp
    have hnil : l = [] := List.length_eq_zero.mp (Nat.le_zero.mp hl)
    subst hnil
    rw [reSplit_nil] at hp
    simp at hp
    subst hp
    rfl
  | succ n ih =>
    intro l hl p hp
    rcases hf : firstSep l with _ | ⟨p1, r⟩
    · rw [reSplit_of_none hf] at hp
      simp at hp
      subst hp
      exact hf
    · rw [reSplit_of_some hf] at hp
      simp at hp
      rcases hp with hp | hp
      · subst hp
        exact firstSep_fst_none hf
      · exact ih r (Nat.le_of_lt_succ (Nat.lt_of_lt_of_le (firstSep_length hf) hl)) p hp

/-- Each clause produced by `split_clauses` is fixed by stripping, longer
than 40 characters, and separator-free. -/
theorem split_clauses_props {text p : List Char} (hp : p ∈ split_clauses text) :
    pyStrip p = p ∧ 40 < p.length ∧ firstSep p = none := by
  unfold split_clauses at hp
  rw [List.mem_filter] at hp
  obtain ⟨hmem, hlen⟩ := hp
  rw [List.mem_map] at hmem
  obtain ⟨q, hq, hqs⟩ := hmem
  subst hqs
  have hq0 : firstSep q = none :=
    reSplit_frags_none text.length text (Nat.le_refl _) q hq
  refine ⟨pyStrip_idem q, by simpa using hlen, ?_⟩
  rcases hf : firstSep (pyStrip q) with _ | pr
  · rfl
  · exfalso
    obtain ⟨u, v, huv⟩ := pyStrip_infix q
    have h1 : firstSep (pyStrip q ++ v) ≠ none :=
      firstSep_append_ne_none_right v (by rw [hf]; simp)
    have h2 : firstSep (u ++ (pyStrip q ++ v)) ≠ none :=
      firstSep_append_ne_none_left u h1
    rw [← huv] at h2
    exact h2 hq0

/-- Splitting the blank-line join of stripped, long, separator-free clauses
returns exactly those clauses. -/
theorem split_join : ∀ cs : List (List Char),
    (∀ c ∈ cs, pyStrip c = c ∧ 40 < c.length ∧ firstSep c = none) →
    split_clauses (joinBlank cs) = cs := by
  intro cs
  induction cs with
  | nil => intro _; decide
  | cons c cs ih =>
    intro h
    obtain ⟨hstrip, hlen, hsep⟩ := h c (List.mem_cons_self _ _)
    have hcne : c ≠ [] := by
      intro hc
      rw [hc] at hlen
      simp at hlen
    cases cs with
    | nil =>
      show split_clauses c = [c]
      unfold split_clauses
      rw [reSplit_of_none hsep]
      simp [hstrip, hlen]
    | cons c2 cs2 =>
      obtain ⟨hstrip2, hlen2, _⟩ := h c2 (by simp)
      have hc2ne : c2 ≠ [] := by
        intro hc
        rw [hc] at hlen2
        simp at hlen2
      have hhead : ∀ x, (joinBlank (c2 :: cs2)).head? = some x → isSpace x = false := by
        intro x hx
        have hx2 : c2.head? = some x := by
          cases cs2 with
          | nil => exact hx
          | cons c3 cs3 =>
            rw [show joinBlank (c2 :: c3 :: cs3) =
                c2 ++ '\n' :: '\n' :: joinBlank (c3 :: cs3) from rfl,
              head?_append_left hc2ne] at hx
            exact hx
        exact pyStrip_fixed_head hstrip2 x hx2
      have hjoin : firstSep (joinBlank (c :: c2 :: cs2)) =
          some (c, joinBlank (c2 :: cs2)) := by
        rw [show joinBlank (c :: c2 :: cs2) =
            c ++ '\n' :: '\n' :: joinBlank (c2 :: cs2) from rfl,
          firstSep_append_of_none hsep (pyStrip_fixed_last hstrip) _,
          firstSep_blank_junction hhead]
        simp
      have htail := ih (fun c' hc' => h c' (List.mem_cons_of_mem _ hc'))
      show split_clauses (joinBlank (c :: c2 :: cs2)) = c :: c2 :: cs2
      unfold split_clauses
      rw [reSplit_of_some hjoin]
      unfold split_clauses at htail
      simp only [List.reverse_nil, List.nil_append, List.map_cons, List.filter_cons,
        hstrip]
      rw [htail]
      simp [hlen]

/-- C7: the clause segmenter is idempotent under rejoining — re-segmenting
the blank-line join of the segmented clauses reproduces the same clause
sequence. -/
theorem segmenter_idempotent (text : List Char) :
    split_clauses (joinBlank (split_clauses text)) = split_clauses text :=
  split_join _ (fun _ hc => split_clauses_props hc)

/-- Unfolding `specFirst` at a whitespace character. -/
theorem specFirst_cons_ws {c : Char} {t : List Char} (hc : isSpace c = true) :
    specFirst (c :: t) =
      if 2 ≤ (c :: t.takeWhile isSpace).count '\n' then
        some ([], t.dropWhile isSpace)
      else
        (specFirst (t.dropWhile isSpace)).map
          fun pr => ((c :: t.takeWhile isSpace) ++ pr.1, pr.2) := by
  rw [specFirst]
  rw [if_pos hc]

/-- Unfolding `specFirst` at a non-whitespace character. -/
theorem specFirst_cons_nonws {c : Char} {t : List Char} (hc : isSpace c = false) :
    specFirst (c :: t) = (specFirst t).map fun pr => (c :: pr.1, pr.2) := by
  rw [specFirst]
  rw [if_neg (by simp [hc])]

/-- The remainder after the first blank-line boundary is strictly shorter. -/
theorem specFirst_length : ∀ (n : Nat) (l : List Char), l.length ≤ n →
    ∀ {p r : List Char}, specFirst l = some (p, r) → r.length < l.length := by
  intro n
  induction n with
  | zero =>
    intro l hl p r h
    have hnil : l = [] := List.length_eq_zero.mp (Nat.le_zero.mp hl)
    subst hnil
    rw [specFirst] at h
    cases h
  | succ n ih =>
    intro l hl p r h
    cases l with
    | nil => rw [specFirst] at h; cases h
    | cons c t =>
      have ht : t.length ≤ n := Nat.le_of_succ_le_succ hl
      by_cases hc : isSpace c
      · rw [specFirst_cons_ws hc] at h
        split at h
        · simp at h
          obtain ⟨hp, hr⟩ := h
          subst hr
          exact Nat.lt_succ_of_le ((List.dropWhile_sublist _).length_le)
        · rcases hf : specFirst (t.dropWhile isSpace) with _ | ⟨p', r'⟩
          · rw [hf] at h; simp at h
          · rw [hf] at h
            simp at h
            obtain ⟨hp, hr⟩ := h
            subst hr
            have hd : (t.dropWhile isSpace).length ≤ n :=
              Nat.le_trans ((List.dropWhile_sublist _).length_le) ht
            have := ih (t.dropWhile isSpace) hd hf
            have h2 : (t.dropWhile isSpace).length ≤ t.length :=
              (List.dropWhile_sublist _).length_le
            simp only [List.length_cons]
            omega
      · rw [specFirst_cons_nonws (by simpa using hc)] at h
        rcases hf : specFirst t with _ | ⟨p', r'⟩
        · rw [hf] at h; simp at h
        · rw [hf] at h
          simp at h
          obtain ⟨hp, hr⟩ := h
          subst hr
          exact Nat.lt_succ_of_lt (ih t ht hf)

/-- Fuel irrelevance for `specSplitAux`. -/
theorem specSplitAux_eq : ∀ fuel (l : List Char), l.length ≤ fuel →
    specSplitAux fuel l = specSplit l := by
  intro fuel
  induction fuel using Nat.strong_induction_on with
  | _ fuel ih =>
    intro l hl
    match fuel with
    | 0 =>
      have hnil : l = [] := List.length_eq_zero.mp (Nat.le_zero.mp hl)
      subst hnil
      rfl
    | fuel + 1 =>
      show specSplitAux (fuel + 1) l = specSplitAux l.length l
      rcases hf : specFirst l with _ | ⟨p, r⟩
      · have h1 : specSplitAux (fuel + 1) l = [l] := by simp [specSplitAux, hf]
        have h2 : specSplitAux l.length l = [l] := by
          cases hll : l.length with
          | zero => rfl
          | succ m => simp [specSplitAux, hf]
        rw [h1, h2]
      · have hr : r.length < l.length := specFirst_length l.length l (Nat.le_refl _) hf
        cases hll : l.length with
        | zero =>
          have hnil : l = [] := List.length_eq_zero.mp hll
          rw [hnil, specFirst] at hf
          cases hf
        | succ m =>
          have h1 : specSplitAux (fuel + 1) l = p :: specSplitAux fuel r := by
            simp [specSplitAux, hf]
          have h2 : specSplitAux (m + 1) l = p :: specSplitAux m r := by
            simp [specSplitAux, hf]
          rw [h1, h2]
          have hrm : r.length ≤ m := by omega
          have hrf : r.length ≤ fuel := by omega
          rw [ih fuel (Nat.lt_succ_self _) r hrf,
            ih m (by omega) r hrm]

/-- `specSplit` of a boundary-free text. -/
theorem specSplit_of_none {l : List Char} (h : specFirst l = none) :
    specSplit l = [l] := by
  show specSplitAux l.length l = [l]
  cases hll : l.length with
  | zero => rfl
  | succ m => simp [specSplitAux, h]

/-- `specSplit` emits the fragment before the first boundary and recurses. -/
theorem specSplit_of_some {l p r : List Char} (h : specFirst l = some (p, r)) :
    specSplit l = p :: specSplit r := by
  show specSplitAux l.length l = _
  cases hll : l.length with
  | zero =>
    have hnil : l = [] := List.length_eq_zero.mp hll
    rw [hnil, specFirst] at h
    cases h
  | succ m =>
    have hr : r.length < l.length := specFirst_length l.length l (Nat.le_refl _) h
    simp only [specSplitAux, h]
    rw [specSplitAux_eq m r (by omega)]

/-- A whitespace run without newlines followed by a non-whitespace boundary
has no separator remainder. -/
theorem sepRest_ws_nonl {u rest : List Char} (hw : ∀ x ∈ u, isSpace x = true)
    (hcu : u.count '\n' = 0) (htw : rest.takeWhile isSpace = []) :
    sepRest (u ++ rest) = none := by
  rw [sepRest_eq_none_iff]
  intro hmem
  rw [List.takeWhile_append_of_pos hw, htw, List.append_nil] at hmem
  have hpos := List.count_pos_iff.mpr hmem
  rw [hcu] at hpos
  exact Nat.lt_irrefl 0 hpos

/-- Inside a whitespace run containing a newline, the separator scan returns
the tail of the run after its last newline. -/
theorem sepRest_ws_run : ∀ (u rest : List Char), (∀ x ∈ u, isSpace x = true) →
    1 ≤ u.count '\n' → rest.takeWhile isSpace = [] →
    ∃ R3, (∀ x ∈ R3, isSpace x = true) ∧ '\n' ∉ R3 ∧
      sepRest (u ++ rest) = some (R3 ++ rest) := by
  intro u
  induction u with
  | nil => intro rest _ h1 _; simp at h1
  | cons d u ih =>
    intro rest hw h1 htw
    have hd : isSpace d = true := hw d (List.mem_cons_self _ _)
    have hwu : ∀ x ∈ u, isSpace x = true := fun x hx => hw x (List.mem_cons_of_mem _ hx)
    by_cases hcount : 1 ≤ u.count '\n'
    · obtain ⟨R3, hR3w, hR3n, hsr⟩ := ih rest hwu hcount htw
      refine ⟨R3, hR3w, hR3n, ?_⟩
      rw [List.cons_append]
      simp [sepRest, hd, hsr]
    · have hcu : u.count '\n' = 0 := by omega
      have hd' : d = '\n' := by
        by_contra hdn
        rw [List.count_cons_of_ne (fun hh => hdn hh.symm), hcu] at h1
        simp at h1
      have hnone : sepRest (u ++ rest) = none := sepRest_ws_nonl hwu hcu htw
      refine ⟨u, hwu, ?_, ?_⟩
      · intro hmem
        have hpos := List.count_pos_iff.mpr hmem
        rw [hcu] at hpos
        exact Nat.lt_irrefl 0 hpos
      · rw [List.cons_append]
        simp [sepRest, hd, hnone, hd', show isSpace '\n' = true by decide]

/-- A whitespace run with at most one newline maps the first separator match
over the remaining text. -/
theorem firstSep_ws_run_low : ∀ (u rest : List Char), (∀ x ∈ u, isSpace x = true) →
    u.count '\n' ≤ 1 → rest.takeWhile isSpace = [] →
    firstSep (u ++ rest) = (firstSep rest).map fun pr => (u ++ pr.1, pr.2) := by
  intro u
  induction u with
  | nil =>
    intro rest _ _ _
    rcases hf : firstSep rest with _ | pr <;> simp [hf]
  | cons d u ih =>
    intro rest hw hcnt htw
    have hwu : ∀ x ∈ u, isSpace x = true := fun x hx => hw x (List.mem_cons_of_mem _ hx)
    rw [List.cons_append]
    by_cases hdn : d = '\n'
    · have hcu : u.count '\n' = 0 := by
        subst hdn
        rw [List.count_cons_self] at hcnt
        omega
      have hnone : sepRest (u ++ rest) = none := sepRest_ws_nonl hwu hcu htw
      simp only [firstSep, if_pos hdn, hnone]
      rw [ih rest hwu (by omega) htw]
      rcases hf : firstSep rest with _ | pr <;> simp [hf]
    · have hcu : u.count '\n' ≤ 1 := by
        rwa [List.count_cons_of_ne (fun hh => hdn hh.symm)] at hcnt
      simp only [firstSep, if_neg hdn]
      rw [ih rest hwu hcu htw]
      rcases hf : firstSep rest with _ | pr <;> simp [hf]

/-- A whitespace run with at least two newlines produces a separator match
whose fragment and remainder differ from the run boundaries only by
newline-free whitespace. -/
theorem firstSep_ws_run_high : ∀ (u rest : List Char), (∀ x ∈ u, isSpace x = true) →
    2 ≤ u.count '\n' → rest.takeWhile isSpace = [] →
    ∃ R1 R3, (∀ x ∈ R1, isSpace x = true) ∧ '\n' ∉ R1 ∧
      (∀ x ∈ R3, isSpace x = true) ∧ '\n' ∉ R3 ∧
      firstSep (u ++ rest) = some (R1, R3 ++ rest) := by
  intro u
  induction u with
  | nil => intro rest _ h2 _; simp at h2
  | cons d u ih =>
    intro rest hw h2 htw
    have hd : isSpace d = true := hw d (List.mem_cons_self _ _)
    have hwu : ∀ x ∈ u, isSpace x = true := fun x hx => hw x (List.mem_cons_of_mem _ hx)
    rw [List.cons_append]
    by_cases hdn : d = '\n'
    · have h1 : 1 ≤ u.count '\n' := by
        subst hdn
        rw [List.count_cons_self] at h2
        omega
      obtain ⟨R3, hR3w, hR3n, hsr⟩ := sepRest_ws_run u rest hwu h1 htw
      refine ⟨[], R3, by simp, by simp, hR3w, hR3n, ?_⟩
      simp [firstSep, if_pos hdn, hsr]
    · have h2' : 2 ≤ u.count '\n' := by
        rwa [List.count_cons_of_ne (fun hh => hdn hh.symm)] at h2
      obtain ⟨R1, R3, hR1w, hR1n, hR3w, hR3n, hfs⟩ := ih rest hwu h2' htw
      refine ⟨d :: R1, R3, ?_, ?_, hR3w, hR3n, ?_⟩
      · intro x hx
        rcases List.mem_cons.mp hx with rfl | hx
        · exact hd
        · exact hR1w x hx
      · intro hmem
        rcases List.mem_cons.mp hmem with hh | hh
        · exact hdn hh.symm
        · exact hR1n hh
      · simp only [firstSep, if_neg hdn, hfs]
        simp

/-- `specFirst` of the empty text. -/
theorem specFirst_nil : specFirst [] = none := by rw [specFirst]

/-- `takeWhile` after `dropWhile` with the same predicate is empty. -/
theorem takeWhile_dropWhile_nil {α : Type} (p : α → Bool) (l : List α) :
    (l.dropWhile p).takeWhile p = [] := by
  rcases hd : l.dropWhile p with _ | ⟨a, t⟩
  · rfl
  · have ha : p a = false := dropWhile_head_false (by rw [hd]; rfl)
    rw [List.takeWhile_cons_of_neg (by simp [ha])]

/-- Correspondence between blank-line boundaries and separator matches:
`firstSep` agrees with `specFirst` up to newline-free whitespace attached to
the end of the fragment and the start of the remainder. -/
theorem specFirst_to_firstSep : ∀ (n : Nat) (l : List Char), l.length ≤ n →
    (specFirst l = none → firstSep l = none) ∧
    (∀ p r, specFirst l = some (p, r) → ∃ R1 R3 : List Char,
      (∀ x ∈ R1, isSpace x = true) ∧ '\n' ∉ R1 ∧
      (∀ x ∈ R3, isSpace x = true) ∧ '\n' ∉ R3 ∧
      firstSep l = some (p ++ R1, R3 ++ r)) := by
  intro n
  induction n with
  | zero =>
    intro l hl
    have hnil : l = [] := List.length_eq_zero.mp (Nat.le_zero.mp hl)
    subst hnil
    exact ⟨fun _ => rfl, fun p r h => by rw [specFirst_nil] at h; cases h⟩
  | succ n ih =>
    intro l hl
    cases l with
    | nil => exact ⟨fun _ => rfl, fun p r h => by rw [specFirst_nil] at h; cases h⟩
    | cons c t =>
      have ht : t.length ≤ n := Nat.le_of_succ_le_succ hl
      by_cases hc : isSpace c
      · have hdecomp : c :: t = (c :: t.takeWhile isSpace) ++ t.dropWhile isSpace := by
          rw [List.cons_append, List.takeWhile_append_dropWhile]
        have hwrun : ∀ x ∈ c :: t.takeWhile isSpace, isSpace x = true := by
          intro x hx
          rcases List.mem_cons.mp hx with rfl | hx
          · exact hc
          · exact List.mem_takeWhile_imp hx
        have htwrest : (t.dropWhile isSpace).takeWhile isSpace = [] :=
          takeWhile_dropWhile_nil isSpace t
        have hrest_len : (t.dropWhile isSpace).length ≤ n :=
          Nat.le_trans ((List.dropWhile_sublist _).length_le) ht
        by_cases hcnt : 2 ≤ (c :: t.takeWhile isSpace).count '\n'
        · constructor
          · intro h
            rw [specFirst_cons_ws hc, if_pos hcnt] at h
            cases h
          · intro p r h
            rw [specFirst_cons_ws hc, if_pos hcnt] at h
            simp at h
            obtain ⟨hp, hr⟩ := h
            subst hp
            subst hr
            obtain ⟨R1, R3, hw1, hn1, hw3, hn3, hfs⟩ :=
              firstSep_ws_run_high (c :: t.takeWhile isSpace) (t.dropWhile isSpace)
                hwrun hcnt htwrest
            refine ⟨R1, R3, hw1, hn1, hw3, hn3, ?_⟩
            rw [hdecomp, hfs]
            simp
        · have hcnt' : (c :: t.takeWhile isSpace).count '\n' ≤ 1 := by omega
          have hW := firstSep_ws_run_low (c :: t.takeWhile isSpace) (t.dropWhile isSpace)
            hwrun hcnt' htwrest
          obtain ⟨ihn, ihs⟩ := ih (t.dropWhile isSpace) hrest_len
          constructor
          · intro h
            rw [specFirst_cons_ws hc, if_neg hcnt] at h
            have h0 : specFirst (t.dropWhile isSpace) = none := Option.map_eq_none'.mp h
            rw [hdecomp, hW, ihn h0]
            rfl
          · intro p r h
            rw [specFirst_cons_ws hc, if_neg hcnt] at h
            rcases hf : specFirst (t.dropWhile isSpace) with _ | ⟨p', r'⟩
            · rw [hf] at h; cases h
            · rw [hf] at h
              simp at h
              obtain ⟨hp, hr⟩ := h
              subst hp
              subst hr
              obtain ⟨R1, R3, hw1, hn1, hw3, hn3, hfs⟩ := ihs p' r' hf
              refine ⟨R1, R3, hw1, hn1, hw3, hn3, ?_⟩
              rw [hdecomp, hW, hfs]
              simp
      · have hcn : ¬(c = '\n') := by
          intro hh
          rw [hh] at hc
          exact hc (by decide)
        obtain ⟨ihn, ihs⟩ := ih t ht
        constructor
        · intro h
          rw [specFirst_cons_nonws (by simpa using hc)] at h
          have h0 : specFirst t = none := Option.map_eq_none'.mp h
          simp only [firstSep, if_neg hcn, ihn h0]
          rfl
        · intro p r h
          rw [specFirst_cons_nonws (by simpa using hc)] at h
          rcases hf : specFirst t with _ | ⟨p', r'⟩
          · rw [hf] at h; cases h
          · rw [hf] at h
            simp at h
            obtain ⟨hp, hr⟩ := h
            subst hp
            subst hr
            obtain ⟨R1, R3, hw1, hn1, hw3, hn3, hfs⟩ := ihs p' r' hf
            refine ⟨R1, R3, hw1, hn1, hw3, hn3, ?_⟩
            simp only [firstSep, if_neg hcn, hfs]
            simp

/-- The regex segmentation and the spec's blank-line segmentation agree after
trimming and length filtering; the scan may additionally carry newline-free
whitespace at the front of the pending fragment. -/
theorem reSplit_specSplit : ∀ (n : Nat) (l : List Char), l.length ≤ n →
    ∀ u : List Char, (∀ x ∈ u, isSpace x = true) → '\n' ∉ u →
    ((reSplit u.reverse l).map pyStrip).filter (fun p => 40 < p.length) =
    ((specSplit l).map pyStrip).filter (fun p => 40 < p.length) := by
  intro n
  induction n with
  | zero =>
    intro l hl u hu _
    have hnil : l = [] := List.length_eq_zero.mp (Nat.le_zero.mp hl)
    subst hnil
    rw [reSplit_nil, specSplit_of_none specFirst_nil]
    have hu0 : pyStrip u = [] := by
      unfold pyStrip
      rw [List.dropWhile_eq_nil_iff.mpr hu]
      rfl
    simp only [List.reverse_reverse, hu0]
    simp [hu0, show pyStrip ([] : List Char) = [] from rfl]
  | succ n ih =>
    intro l hl u hu hn
    obtain ⟨crossN, crossS⟩ := specFirst_to_firstSep l.length l (Nat.le_refl _)
    rcases hsf : specFirst l with _ | ⟨p, r⟩
    · rw [reSplit_of_none (crossN hsf), specSplit_of_none hsf]
      have hstrip : pyStrip (u ++ l) = pyStrip l := pyStrip_ws_append hu
      simp [hstrip]
    · obtain ⟨R1, R3, hw1, hn1, hw3, hn3, hfs⟩ := crossS p r hsf
      rw [reSplit_of_some hfs, specSplit_of_some hsf]
      have hstrip : pyStrip (u ++ (p ++ R1)) = pyStrip p := by
        rw [pyStrip_ws_append hu]
        exact pyStrip_append_ws hw1
      have hpush : reSplit [] (R3 ++ r) = reSplit R3.reverse r := by
        have h0 := reSplit_push R3 [] r hn3
        rwa [List.append_nil] at h0
      have hrlen : r.length ≤ n := by
        have h0 := specFirst_length l.length l (Nat.le_refl _) hsf
        omega
      have htail := ih r hrlen R3 hw3 hn3
      simp only [List.reverse_reverse, List.map_cons, List.filter_cons, hstrip, hpush]
      rw [htail]

/-- C6: the clause segmenter agrees with the spec's description — split at
blank-line boundaries, trim each fragment, drop fragments of trimmed length
at most 40, keep survivors in document order — and the empty document yields
the empty clause sequence. -/
theorem segmenter_matches_spec :
    (∀ text : List Char, split_clauses text = splitClausesSpec text) ∧
    split_clauses [] = [] := by
  constructor
  · intro text
    have h := reSplit_specSplit text.length text (Nat.le_refl _) [] (by simp) (by simp)
    simpa [split_clauses, splitClausesSpec] using h
  · decide

end Theorems

end ContractBot
